import Mathlib

/-!
Verification of the route-pattern compilation and matching engine of the
goyave repository (src/parametrizeable.go): the brace scanner
(braceIndices), the pattern compiler (compileParameters) and the parameter
binder (makeParameters).

Strings are embedded as lists of characters; Go byte offsets become list
positions. Errors that the Go code reports by panicking or by returning an
error value are embedded as Except / Option results. The host matching
engine (the Go regexp package) is external to the repository and is
modelled abstractly where the code only consults it, and from the
specification where a claim exercises concrete pattern evaluation.
-/

set_option maxRecDepth 8000

namespace Goyave

/-- The opening curly brace character. -/
def lbrace : Char := Char.ofNat 123

/-- The closing curly brace character. -/
def rbrace : Char := Char.ofNat 125

/-- Errors of the brace scanner. unbalanced models the Go error
"unbalanced braces in %q", emptyParam models "empty route parameter in %q". -/
inductive ScanError where
  | unbalanced
  | emptyParam
deriving DecidableEq

/-- Failure outcomes of compileParameters. Each constructor models one panic
site of the Go function: scan wraps a scanner error, missingName models
"invalid route parameter, missing name in %q", missingPattern models
"invalid route parameter, missing pattern in %q", invalidPattern models the
regexp.MustCompile panic on an invalid expression, unexpectedCapturingGroup
models the "contains capture groups in its regexp" panic, and oddIndices
models the index-out-of-range panic that an odd index list would cause
(unreachable from braceIndices, which always returns pairs). -/
inductive CompileError where
  | scan (e : ScanError)
  | missingName
  | missingPattern
  | invalidPattern
  | unexpectedCapturingGroup
  | oddIndices
deriving DecidableEq

/-- Loop of braceIndices (src/parametrizeable.go, lines 77-103). The
arguments are the remaining input, the current offset i, the nesting level,
the pending first-level opening offset idx, and the recorded indices. The
level mirrors the Go int; the Go code checks level == 0 first and errors as
soon as the level becomes negative. -/
def braceLoop : List Char → Nat → Int → Nat → List Nat → Except ScanError (List Nat)
  | [], _, level, _, indices => if level = 0 then .ok indices else .error .unbalanced
  | c :: rest, i, level, idx, indices =>
    if c = lbrace then
      braceLoop rest (i + 1) (level + 1) (if level + 1 = 1 then i else idx) indices
    else if c = rbrace then
      if level - 1 = 0 then
        if i = idx + 1 then .error .emptyParam
        else braceLoop rest (i + 1) (level - 1) idx (indices ++ [idx, i])
      else if level - 1 < 0 then .error .unbalanced
      else braceLoop rest (i + 1) (level - 1) idx indices
    else braceLoop rest (i + 1) level idx indices

/-- braceIndices returns the first level curly brace indices from a string,
or an error in case of unbalanced braces or an empty parameter. -/
def braceIndices (s : List Char) : Except ScanError (List Nat) :=
  braceLoop s 0 0 0 []

/-- The Go slice s[a:b]. -/
def slice (s : List Char) (a b : Nat) : List Char := (s.take b).drop a

/-- The default parameter pattern, the Go string literal of
compileParameters line 43: not a path separator, one or more times. -/
def defaultPattern : List Char := ['[', '^', '/', ']', '+']

/-- Modelled from the spec: the host matching engine (the Go regexp
package) is external to the repository. compileParameters only consults it
through regexp.MustCompile, which panics on an invalid pattern (valid), and
regexp.NumSubexp, the number of capturing groups of a compiled pattern
(numSubexp). -/
structure RegexEngine where
  valid : List Char → Bool
  numSubexp : List Char → Nat

/-- A route or router accepting parameters in its URI: the compiled pattern
together with the ordered parameter names (struct parametrizeable). -/
structure parametrizeable where
  regex : List Char
  parameters : List (List Char)
deriving DecidableEq

/-- The placeholder loop of compileParameters (lines 35-57). Walks the flat
index list two at a time; endIdx is the Go variable end after the increment
that skips the closing brace, acc is the pattern builder content after the
initial anchor, params the parameter names recorded so far. splitN on the
first colon is embedded as takeWhile / dropWhile-tail. -/
def compileLoop (uri : List Char) : List Nat → Nat → List Char → List (List Char) →
    Except CompileError (List Char × List (List Char) × Nat)
  | [], endIdx, acc, params => .ok (acc, params, endIdx)
  | _ :: [], _, _, _ => .error .oddIndices
  | o :: c :: rest, endIdx, acc, params =>
    let raw := slice uri endIdx o
    let sub := slice uri (o + 1) c
    let name := sub.takeWhile (fun ch => ch != ':')
    if name = [] then .error .missingName
    else if sub.any (fun ch => ch == ':') then
      let pat := (sub.dropWhile (fun ch => ch != ':')).tail
      if pat = [] then .error .missingPattern
      else
        compileLoop uri rest (c + 1) (acc ++ raw ++ '(' :: pat ++ [')']) (params ++ [name])
    else
      compileLoop uri rest (c + 1) (acc ++ raw ++ '(' :: defaultPattern ++ [')']) (params ++ [name])

/-- compileParameters (lines 19-73): parse the route parameters and compile
their regexes. If ends is true the generated pattern ends with the
end-of-string anchor. Panics of the Go code are embedded as errors. -/
def compileParameters (E : RegexEngine) (uri : List Char) (ends : Bool) :
    Except CompileError parametrizeable :=
  match braceIndices uri with
  | .error e => .error (.scan e)
  | .ok idxs =>
    let mid : Except CompileError (List Char × List (List Char)) :=
      if 0 < idxs.length then
        match compileLoop uri idxs 0 [] [] with
        | .error e => .error e
        | .ok (body, params, endIdx) => .ok (body ++ uri.drop endIdx, params)
      else .ok (uri, [])
    match mid with
    | .error e => .error e
    | .ok (content, params) =>
      let pat := '^' :: content ++ (if ends then ['$'] else [])
      if E.valid pat then
        if E.numSubexp pat = idxs.length / 2 then .ok ⟨pat, params⟩
        else .error .unexpectedCapturingGroup
      else .error .invalidPattern

/-- One Go map assignment params[k] = v on the association-list model of a
Go map: replace the value at an existing key, otherwise append the entry. -/
def mapInsert (m : List (List Char × List Char)) (k v : List Char) :
    List (List Char × List Char) :=
  if m.any (fun p => decide (p.1 = k)) then
    m.map (fun p => if p.1 = k then (k, v) else p)
  else m ++ [(k, v)]

/-- Loop of makeParameters (lines 116-118): for i, v := range match,
params[names[i]] = v. Walking the two lists in parallel embeds the Go
indexing names[i] with i increasing from 0; exhausting names while values
remain is the Go index-out-of-range panic, embedded as none. -/
def makeParamsLoop : List (List Char) → List (List Char) → List (List Char × List Char) →
    Option (List (List Char × List Char))
  | [], _, m => some m
  | _ :: _, [], _ => none
  | v :: vs, n :: ns, m => makeParamsLoop vs ns (mapInsert m n v)

/-- makeParameters (lines 114-120) from a regex match (capturing groups
only, full match excluded) and the given parameter names. -/
def makeParameters (mtch names : List (List Char)) : Option (List (List Char × List Char)) :=
  makeParamsLoop mtch names []

/-- Go map read m[k] on the association-list model. -/
def mapLookup (m : List (List Char × List Char)) (k : List Char) : Option (List Char) :=
  match m with
  | [] => none
  | p :: rest => if p.1 = k then some p.2 else mapLookup rest k

/-- The value paired with the last occurrence of the key among the first
(length of the value list) names: the expected content of the Go map. -/
def lastBind : List (List Char) → List (List Char) → List Char → Option (List Char)
  | v :: vs, n :: ns, k =>
      match lastBind vs ns k with
      | some w => some w
      | none => if n = k then some v else none
  | _, _, _ => none

/-- The keys of an association list. -/
def mapKeys (m : List (List Char × List Char)) : List (List Char) := m.map Prod.fst

/-! Depth-based description of the scanner, independent of the loop: the
nesting depth of a prefix is the number of opening minus the number of
closing braces it contains, and the first-level braces are those at which
the depth crosses between zero and one. -/

/-- Contribution of one character to the brace nesting depth. -/
def charDelta (c : Char) : Int := if c = lbrace then 1 else if c = rbrace then -1 else 0

/-- Brace nesting depth of a string: openings minus closings. -/
def depth (s : List Char) : Int := (s.map charDelta).sum

/-- Position i carries a first-level opening brace: the character is an
opening brace and the depth of the preceding prefix is zero. -/
def isFirstLevelOpen (s : List Char) (i : Nat) : Prop :=
  s.get? i = some lbrace ∧ depth (s.take i) = 0

/-- Position j carries a first-level closing brace: the character is a
closing brace and the depth of the prefix through it is zero. -/
def isFirstLevelClose (s : List Char) (j : Nat) : Prop :=
  s.get? j = some rbrace ∧ depth (s.take (j + 1)) = 0

instance (s : List Char) (i : Nat) : Decidable (isFirstLevelOpen s i) := by
  unfold isFirstLevelOpen; infer_instance

instance (s : List Char) (j : Nat) : Decidable (isFirstLevelClose s j) := by
  unfold isFirstLevelClose; infer_instance

/-- First-level opening positions below offset i, in increasing order. -/
def opensBefore (s : List Char) (i : Nat) : List Nat :=
  (List.range i).filter (fun j => decide (isFirstLevelOpen s j))

/-- First-level closing positions below offset i, in increasing order. -/
def closesBefore (s : List Char) (i : Nat) : List Nat :=
  (List.range i).filter (fun j => decide (isFirstLevelClose s j))

/-- All first-level opening positions of a string. -/
def firstLevelOpens (s : List Char) : List Nat := opensBefore s s.length

/-- All first-level closing positions of a string. -/
def firstLevelCloses (s : List Char) : List Nat := closesBefore s s.length

/-- The first-level brace pairs of a string: the k-th opening with the k-th
closing, in left-to-right order. -/
def firstLevelPairs (s : List Char) : List (Nat × Nat) :=
  (firstLevelOpens s).zip (firstLevelCloses s)

/-- Flatten a pair list to the flat index list braceIndices returns. -/
def flattenPairs : List (Nat × Nat) → List Nat
  | [] => []
  | p :: rest => p.1 :: p.2 :: flattenPairs rest

/-- Group a flat index list into consecutive pairs. -/
def toPairs : List Nat → List (Nat × Nat)
  | o :: c :: rest => (o, c) :: toPairs rest
  | _ => []

/-- The depth of some prefix is negative: a closing brace with no matching
opening brace. -/
def negAt (s : List Char) : Prop := ∃ n, n ≤ s.length ∧ depth (s.take n) < 0

/-- Some first-level brace pair is empty. -/
def hasEmptyPair (s : List Char) : Prop := ∃ p ∈ firstLevelPairs s, p.2 = p.1 + 1

/-- Shape invariant of a recorded pair list: each pair holds an opening and
a closing brace enclosing a nonempty body, and consecutive pairs do not
overlap. -/
def PairsOk (s : List Char) (A : List (Nat × Nat)) : Prop :=
  (∀ p ∈ A, p.1 + 1 < p.2 ∧ s.get? p.1 = some lbrace ∧ s.get? p.2 = some rbrace) ∧
  List.Chain' (fun p q => p.2 < q.1) A

/-! Assembly of the compiled pattern, described per placeholder pair. -/

/-- The text between the braces of one placeholder pair. -/
def placeholderBody (uri : List Char) (p : Nat × Nat) : List Char := slice uri (p.1 + 1) p.2

/-- The name part of one placeholder: the body up to the first colon. -/
def placeholderName (uri : List Char) (p : Nat × Nat) : List Char :=
  (placeholderBody uri p).takeWhile (fun ch => ch != ':')

/-- The pattern of one placeholder: the body after the first colon when a
colon is present, the default pattern otherwise. -/
def placeholderPattern (uri : List Char) (p : Nat × Nat) : List Char :=
  if (placeholderBody uri p).any (fun ch => ch == ':') then
    ((placeholderBody uri p).dropWhile (fun ch => ch != ':')).tail
  else defaultPattern

/-- The pattern text contributed by the placeholders from offset endIdx on:
for each pair, the literal text before its opening brace copied unchanged,
then one capturing group holding the placeholder pattern. -/
def assembleMid (uri : List Char) : List (Nat × Nat) → Nat → List Char
  | [], _ => []
  | p :: rest, endIdx =>
      slice uri endIdx p.1 ++ '(' :: placeholderPattern uri p ++ [')'] ++
        assembleMid uri rest (p.2 + 1)

/-- The offset one past the last closing brace, from which the trailing
literal text is copied. -/
def lastEnd : List (Nat × Nat) → Nat → Nat
  | [], endIdx => endIdx
  | p :: rest, _ => lastEnd rest (p.2 + 1)

/-- The full assembled pattern: start anchor, the per-placeholder text, the
trailing literal text, and the end anchor exactly when ends is true. -/
def assembledPattern (uri : List Char) (pairs : List (Nat × Nat)) (ends : Bool) : List Char :=
  '^' :: (assembleMid uri pairs 0 ++ uri.drop (lastEnd pairs 0)) ++
    (if ends then ['$'] else [])

/-! A concrete host engine and a concrete pattern evaluator, modelled from
the spec, for the claims that exercise concrete templates. -/

/-- Modelled from the spec: the capturing-group count of the host engine
(Go NumSubexp), counting every open parenthesis not followed by a question
mark. Faithful for the patterns of the concrete instances below, which
contain no escapes and no parenthesis inside a character class. -/
def miniNumSubexp : List Char → Nat
  | [] => 0
  | '(' :: '?' :: rest => miniNumSubexp rest
  | '(' :: rest => miniNumSubexp rest + 1
  | _ :: rest => miniNumSubexp rest

/-- A concrete host engine: every pattern is considered valid and capturing
groups are counted by miniNumSubexp. -/
def demoEngine : RegexEngine := ⟨fun _ => true, miniNumSubexp⟩

/-- Token of the fragment of the matching language that the compiler emits
when every placeholder uses the default pattern. -/
inductive RTok where
  | lit (c : Char)
  | group
  | endAnchor
deriving DecidableEq

/-- Modelled from the spec: tokenization of an assembled pattern in the
default-subpattern fragment. A capturing group is the exact default
pattern, the end-of-string anchor may close the pattern, and every other
character matches itself literally. -/
def parseToks : List Char → Option (List RTok)
  | [] => some []
  | '(' :: '[' :: '^' :: '/' :: ']' :: '+' :: ')' :: rest =>
      (parseToks rest).map (fun ts => RTok.group :: ts)
  | '$' :: rest => if rest = [] then some [RTok.endAnchor] else none
  | c :: rest => (parseToks rest).map (fun ts => RTok.lit c :: ts)

/-- Modelled from the spec: anchored-at-start evaluation of a token list, a
group matching one or more characters other than the path separator,
longest candidate first. The returned list holds the captured substrings in
order. The fuel decreases on every call; every recursive call also shrinks
the token list, so any fuel above the token count is enough. -/
def runMatch : Nat → List RTok → List Char → Option (List (List Char))
  | 0, _, _ => none
  | _ + 1, [], _ => some []
  | fuel + 1, RTok.endAnchor :: ts, cs => if cs = [] then runMatch fuel ts cs else none
  | fuel + 1, RTok.lit c :: ts, cs =>
      match cs with
      | [] => none
      | c2 :: cs2 => if c = c2 then runMatch fuel ts cs2 else none
  | fuel + 1, RTok.group :: ts, cs =>
      let rn := cs.takeWhile (fun c => c != '/')
      let rest := cs.dropWhile (fun c => c != '/')
      ((List.range rn.length).map (fun k => rn.length - k)).findSome? (fun n =>
        (runMatch fuel ts (rn.drop n ++ rest)).map (fun caps => rn.take n :: caps))

/-- Modelled from the spec: evaluation of an assembled pattern against a
path in the host engine, for the default-subpattern fragment. The pattern
must open with the start anchor, as every assembled pattern does. -/
def regexEval (pat path : List Char) : Option (List (List Char)) :=
  match pat with
  | '^' :: rest =>
    match parseToks rest with
    | none => none
    | some ts => runMatch (ts.length + 1) ts path
  | _ => none

/-- Parsing mode for the template grammar of the spec: top level, inside a
placeholder name, inside a placeholder subpattern. The flag records whether
at least one character was read. -/
inductive GMode where
  | top
  | pname (seen : Bool)
  | psub (seen : Bool)

/-- Modelled from the spec, section 6: the template grammar
template := (literal | placeholder)*,
placeholder := open-brace name (colon subpattern)? close-brace,
name := one or more characters excluding colon and close-brace,
subpattern := one or more characters excluding close-brace,
literal := any run of characters containing no brace.
The scan is deterministic because name and subpattern exclude their own
delimiters. -/
def grammarScan : GMode → List Char → Bool
  | .top, [] => true
  | .top, c :: rest =>
      if c = lbrace then grammarScan (.pname false) rest
      else if c = rbrace then false
      else grammarScan .top rest
  | .pname _, [] => false
  | .pname seen, c :: rest =>
      if c = ':' then seen && grammarScan (.psub false) rest
      else if c = rbrace then seen && grammarScan .top rest
      else grammarScan (.pname true) rest
  | .psub _, [] => false
  | .psub seen, c :: rest =>
      if c = rbrace then seen && grammarScan .top rest
      else grammarScan (.psub true) rest

/-- A template conforms to the spec grammar when the top-level scan accepts
it whole. -/
def conformsToGrammar (s : List Char) : Bool := grammarScan .top s

/-! Lemmas about the association-list model of a Go map. -/

theorem mapLookup_append_some (m₁ m₂ : List (List Char × List Char)) (k v : List Char)
    (h : mapLookup m₁ k = some v) : mapLookup (m₁ ++ m₂) k = some v := by
  induction m₁ with
  | nil => simp [mapLookup] at h
  | cons p rest ih =>
    by_cases hp : p.1 = k
    · simp only [mapLookup, if_pos hp] at h
      simp only [List.cons_append, mapLookup, if_pos hp]
      exact h
    · simp only [mapLookup, if_neg hp] at h
      simp only [List.cons_append, mapLookup, if_neg hp]
      exact ih h

theorem mapLookup_append_none (m₁ m₂ : List (List Char × List Char)) (k : List Char)
    (h : mapLookup m₁ k = none) : mapLookup (m₁ ++ m₂) k = mapLookup m₂ k := by
  induction m₁ with
  | nil => rfl
  | cons p rest ih =>
    by_cases hp : p.1 = k
    · simp [mapLookup, hp] at h
    · simp only [mapLookup, hp, if_neg hp, List.cons_append] at h ⊢
      exact ih h

theorem mapLookup_any (m : List (List Char × List Char)) (k : List Char) :
    m.any (fun p => decide (p.1 = k)) = (mapLookup m k).isSome := by
  induction m with
  | nil => rfl
  | cons p rest ih =>
    by_cases hp : p.1 = k <;> simp [mapLookup, hp, ih]

theorem mapLookup_replace_ne (m : List (List Char × List Char)) (k v k' : List Char)
    (h : k' ≠ k) :
    mapLookup (m.map (fun p => if p.1 = k then (k, v) else p)) k' = mapLookup m k' := by
  induction m with
  | nil => rfl
  | cons p rest ih =>
    by_cases hp : p.1 = k
    · have h1 : ¬ (k = k') := fun hc => h hc.symm
      have h2 : ¬ (p.1 = k') := by rw [hp]; exact h1
      simp only [List.map_cons, if_pos hp, mapLookup]
      rw [if_neg h2]
      have h1' : ¬ ((k, v).1 = k') := h1
      rw [if_neg h1']
      exact ih
    · by_cases hq : p.1 = k'
      · simp only [List.map_cons, mapLookup, if_neg hp, if_pos hq]
      · simp only [List.map_cons, mapLookup, if_neg hp, if_neg hq]
        exact ih

theorem mapLookup_replace_eq (m : List (List Char × List Char)) (k v : List Char)
    (h : (mapLookup m k).isSome) :
    mapLookup (m.map (fun p => if p.1 = k then (k, v) else p)) k = some v := by
  induction m with
  | nil => simp [mapLookup] at h
  | cons p rest ih =>
    by_cases hp : p.1 = k
    · simp [mapLookup, if_pos hp]
    · simp only [mapLookup, if_neg hp] at h
      simp only [List.map_cons, mapLookup, if_neg hp]
      exact ih h

theorem mapLookup_mapInsert (m : List (List Char × List Char)) (k v k' : List Char) :
    mapLookup (mapInsert m k v) k' = if k' = k then some v else mapLookup m k' := by
  unfold mapInsert
  by_cases hmem : m.any (fun p => decide (p.1 = k)) = true
  · rw [if_pos hmem]
    by_cases hk : k' = k
    · subst hk
      rw [if_pos rfl]
      exact mapLookup_replace_eq m k' v (by rw [← mapLookup_any]; exact hmem)
    · rw [if_neg hk]
      exact mapLookup_replace_ne m k v k' hk
  · rw [if_neg hmem]
    have hnone : mapLookup m k = none := by
      rw [mapLookup_any] at hmem
      exact Option.not_isSome_iff_eq_none.mp (by simpa using hmem)
    by_cases hk : k' = k
    · rw [if_pos hk, hk, mapLookup_append_none m _ k hnone]
      simp [mapLookup]
    · rw [if_neg hk]
      cases hmk : mapLookup m k' with
      | none =>
        rw [mapLookup_append_none m _ k' hmk]
        have : ¬ ((k, v).1 = k') := fun hc => hk (by simpa using hc.symm)
        simp [mapLookup, this]
      | some w => exact mapLookup_append_some m _ k' w hmk

theorem mapKeys_mapInsert_of_mem (m : List (List Char × List Char)) (k v : List Char)
    (h : m.any (fun p => decide (p.1 = k)) = true) :
    mapKeys (mapInsert m k v) = mapKeys m := by
  unfold mapInsert
  rw [if_pos h]
  unfold mapKeys
  rw [List.map_map]
  apply List.map_congr_left
  intro p _
  by_cases hp : p.1 = k
  · simp [hp]
  · simp [hp]

theorem mapKeys_nodup_mapInsert (m : List (List Char × List Char)) (k v : List Char)
    (h : (mapKeys m).Nodup) : (mapKeys (mapInsert m k v)).Nodup := by
  by_cases hmem : m.any (fun p => decide (p.1 = k)) = true
  · rw [mapKeys_mapInsert_of_mem m k v hmem]
    exact h
  · unfold mapInsert
    rw [if_neg hmem]
    unfold mapKeys
    rw [List.map_append]
    simp only [List.map_cons, List.map_nil]
    apply List.Nodup.append h (List.nodup_singleton k)
    intro a ha hb
    simp only [List.mem_singleton] at hb
    subst hb
    rw [List.any_eq_true] at hmem
    apply hmem
    simp only [mapKeys, List.mem_map] at ha
    obtain ⟨p, hp, hpk⟩ := ha
    exact ⟨p, hp, by simp [hpk]⟩

/-! Lemmas about lastBind, the expected content of the parameter map. -/

theorem lastBind_eq_none_of_not_mem : ∀ (vs ns : List (List Char)) (k : List Char),
    k ∉ ns → lastBind vs ns k = none
  | [], _, _, _ => rfl
  | _ :: _, [], _, _ => rfl
  | v :: vs, n :: ns, k, h => by
    have hn : ¬ (n = k) := fun hc => h (List.mem_cons.mpr (Or.inl hc.symm))
    have hrec : lastBind vs ns k = none :=
      lastBind_eq_none_of_not_mem vs ns k (fun hc => h (List.mem_cons_of_mem n hc))
    simp [lastBind, hrec, hn]

theorem lastBind_isSome_iff : ∀ (ms ns : List (List Char)) (k : List Char),
    ms.length = ns.length → ((lastBind ms ns k).isSome ↔ k ∈ ns)
  | [], [], k, _ => by simp [lastBind]
  | [], _ :: _, _, h => by simp at h
  | _ :: _, [], _, h => by simp at h
  | v :: vs, n :: ns, k, h => by
    have h' : vs.length = ns.length := by simpa using h
    have hrec := lastBind_isSome_iff vs ns k h'
    cases hlb : lastBind vs ns k with
    | some w =>
      have hmem : k ∈ ns := hrec.mp (by rw [hlb]; rfl)
      simp [lastBind, hlb, List.mem_cons, hmem]
    | none =>
      have hmem : ¬ k ∈ ns := fun hc => by
        rw [hlb] at hrec
        exact (Bool.false_ne_true (by simpa using hrec.mpr hc))
      by_cases hn : n = k
      · simp [lastBind, hlb, hn, List.mem_cons]
      · have hkn : ¬ (k = n) := fun hc => hn hc.symm
        simp [lastBind, hlb, hn, List.mem_cons, hkn, hmem]

theorem lastBind_last_occ : ∀ (i : Nat) (ms ns : List (List Char))
    (h : ms.length = ns.length) (hi : i < ns.length),
    ns.get ⟨i, hi⟩ ∉ ns.drop (i + 1) →
    lastBind ms ns (ns.get ⟨i, hi⟩) = ms.get? i
  | 0, v :: vs, n :: ns, _, _, hnot => by
    have hn : lastBind vs ns n = none :=
      lastBind_eq_none_of_not_mem vs ns n (by simpa using hnot)
    simp [lastBind, hn]
  | i + 1, v :: vs, n :: ns, h, hi, hnot => by
    have h' : vs.length = ns.length := by simpa using h
    have hi' : i < ns.length := by simpa using hi
    have hg : (n :: ns).get ⟨i + 1, hi⟩ = ns.get ⟨i, hi'⟩ := rfl
    have hnot' : ns.get ⟨i, hi'⟩ ∉ ns.drop (i + 1) := by
      rw [hg] at hnot
      simpa using hnot
    have hrec := lastBind_last_occ i vs ns h' hi' hnot'
    have hsome : vs.get? i = some (vs.get ⟨i, by rw [h']; exact hi'⟩) :=
      List.get?_eq_get (by rw [h']; exact hi')
    rw [hg]
    simp only [lastBind, hrec, hsome, List.get?_cons_succ]
  | 0, [], _ :: _, h, _, _ => by simp at h
  | _, _ :: _, [], _, hi, _ => by simp at hi
  | _, [], [], _, hi, _ => by simp at hi
  | _ + 1, [], _ :: _, h, _, _ => by simp at h

/-! The binder loop realizes lastBind on top of the starting map. -/

theorem makeParamsLoop_spec : ∀ (ms ns : List (List Char)) (m : List (List Char × List Char)),
    ms.length ≤ ns.length →
    ∃ r, makeParamsLoop ms ns m = some r ∧
      (∀ k, mapLookup r k = match lastBind ms ns k with
        | some w => some w
        | none => mapLookup m k) ∧
      ((mapKeys m).Nodup → (mapKeys r).Nodup)
  | [], ns, m, _ => ⟨m, rfl, fun k => rfl, fun h => h⟩
  | _ :: _, [], _, h => absurd h (by simp)
  | v :: vs, n :: ns, m, h => by
    have h' : vs.length ≤ ns.length := by simpa using h
    obtain ⟨r, hr, hlook, hnd⟩ := makeParamsLoop_spec vs ns (mapInsert m n v) h'
    refine ⟨r, hr, fun k => ?_, fun hm => hnd (mapKeys_nodup_mapInsert m n v hm)⟩
    rw [hlook k]
    cases hlb : lastBind vs ns k with
    | some w => simp [lastBind, hlb]
    | none =>
      rw [mapLookup_mapInsert]
      simp only [lastBind, hlb]
      by_cases hk : n = k
      · rw [if_pos hk.symm, if_pos hk]
      · rw [if_neg (fun hc => hk hc.symm), if_neg hk]

theorem mapInsert_length (m : List (List Char × List Char)) (k v : List Char) :
    (mapInsert m k v).length ≤ m.length + 1 := by
  unfold mapInsert
  by_cases hmem : m.any (fun p => decide (p.1 = k)) = true
  · rw [if_pos hmem, List.length_map]
    omega
  · rw [if_neg hmem, List.length_append]
    simp

theorem makeParamsLoop_length : ∀ (ms ns : List (List Char))
    (m r : List (List Char × List Char)), makeParamsLoop ms ns m = some r →
    r.length ≤ m.length + ms.length
  | [], _, m, r, h => by
    have hmr : m = r := by simpa [makeParamsLoop] using h
    subst hmr
    simp
  | _ :: _, [], _, _, h => by simp [makeParamsLoop] at h
  | v :: vs, n :: ns, m, r, h => by
    have hrec := makeParamsLoop_length vs ns (mapInsert m n v) r h
    have hlen := mapInsert_length m n v
    simp only [List.length_cons]
    omega

theorem makeParamsLoop_none : ∀ (ms ns : List (List Char))
    (m : List (List Char × List Char)), ns.length < ms.length →
    makeParamsLoop ms ns m = none
  | [], _, _, h => absurd h (by simp)
  | _ :: _, [], _, _ => rfl
  | v :: vs, n :: ns, m, h => makeParamsLoop_none vs ns (mapInsert m n v) (by simpa using h)

/-- C5: for every pair of equal-length capture and name lists, the binder
succeeds and returns a mapping with one entry per distinct name, whose key
set is exactly the set of names, and in which a name whose position does
not recur later (in particular the largest position of a repeated name) is
bound to the captured value at that position, so last write wins. -/
theorem C5_makeParameters_positional (ms ns : List (List Char))
    (h : ms.length = ns.length) :
    (makeParameters ms ns).isSome ∧
    ∀ m, makeParameters ms ns = some m →
      (mapKeys m).Nodup ∧
      (∀ k, (mapLookup m k).isSome ↔ k ∈ ns) ∧
      (∀ i, (hi : i < ns.length) → ns.get ⟨i, hi⟩ ∉ ns.drop (i + 1) →
        mapLookup m (ns.get ⟨i, hi⟩) = ms.get? i) := by
  obtain ⟨r, hr, hlook, hnd⟩ := makeParamsLoop_spec ms ns [] (le_of_eq h)
  constructor
  · rw [makeParameters, hr]
    rfl
  · intro m hm
    rw [makeParameters] at hm
    rw [hm] at hr
    have hrm : m = r := Option.some.inj hr
    rw [← hrm] at hlook hnd
    have hlb : ∀ k, mapLookup m k = lastBind ms ns k := by
      intro k
      rw [hlook k]
      cases lastBind ms ns k <;> rfl
    refine ⟨hnd (by simp [mapKeys]), fun k => ?_, fun i hi hlast => ?_⟩
    · rw [hlb k]
      exact lastBind_isSome_iff ms ns k h
    · rw [hlb (ns.get ⟨i, hi⟩)]
      exact lastBind_last_occ i ms ns h hi hlast

/-- Witness for C5 at captures ["42"] and names ["id"]. -/
theorem C5_makeParameters_positional_witness :
    mapLookup [(['i', 'd'], ['4', '2'])] ['i', 'd'] = some ['4', '2'] := by
  have h := (C5_makeParameters_positional [['4', '2']] [['i', 'd']] (by decide)).2
    [(['i', 'd'], ['4', '2'])] (by rfl)
  exact h.2.2 0 (by decide) (by decide)

/-- C10: when the captured list is no longer than the name list, the binder
is total and the resulting map has at most one entry per captured value;
when the captured list is strictly longer, the Go code indexes past the end
of the name list, an index-out-of-range panic, embedded here as none. -/
theorem C10_makeParameters_totality (ms ns : List (List Char)) :
    (ms.length ≤ ns.length →
      (makeParameters ms ns).isSome ∧
      ∀ m, makeParameters ms ns = some m → m.length ≤ ms.length) ∧
    (ns.length < ms.length → makeParameters ms ns = none) := by
  constructor
  · intro h
    obtain ⟨r, hr, _, _⟩ := makeParamsLoop_spec ms ns [] h
    constructor
    · rw [makeParameters, hr]
      rfl
    · intro m hm
      rw [makeParameters] at hm
      have := makeParamsLoop_length ms ns [] m hm
      simpa using this
  · intro h
    rw [makeParameters]
    exact makeParamsLoop_none ms ns [] h

/-- Witness for C10: one capture with one name binds, two captures with one
name panic. -/
theorem C10_makeParameters_totality_witness :
    (makeParameters [['a']] [['x']]).isSome ∧
    makeParameters [['a'], ['b']] [['x']] = none :=
  ⟨((C10_makeParameters_totality [['a']] [['x']]).1 (by decide)).1,
   (C10_makeParameters_totality [['a'], ['b']] [['x']]).2 (by decide)⟩

/-- C7: the template /user/(id) compiled with ends true yields the pattern
anchored at both ends with one default group; evaluating it and the binder
against /user/42 yields exactly the binding of id to 42; /user/42/extra
does not match; /user/ does not match because the default pattern requires
at least one character other than the separator. -/
theorem C7_user_id_concrete :
    compileParameters demoEngine "/user/\x7bid\x7d".data true =
      .ok ⟨"^/user/([^/]+)$".data, ["id".data]⟩ ∧
    regexEval "^/user/([^/]+)$".data "/user/42".data = some ["42".data] ∧
    makeParameters ["42".data] ["id".data] = some [("id".data, "42".data)] ∧
    regexEval "^/user/([^/]+)$".data "/user/42/extra".data = none ∧
    regexEval "^/user/([^/]+)$".data "/user/".data = none :=
  ⟨rfl, rfl, rfl, rfl, rfl⟩

/-- C6: the placeholder body is split on the first colon only; an empty
name part fails the loop with missingName, a colon with an empty pattern
part after it fails the loop with missingPattern, without a colon the
default pattern is emitted, and a loop failure is the failure of
compileParameters. -/
theorem C6_placeholder_split :
    (∀ (uri : List Char) (o c : Nat) (rest : List Nat) (endIdx : Nat)
        (acc : List Char) (params : List (List Char)),
        placeholderName uri (o, c) = [] →
        compileLoop uri (o :: c :: rest) endIdx acc params = .error .missingName) ∧
    (∀ (uri : List Char) (o c : Nat) (rest : List Nat) (endIdx : Nat)
        (acc : List Char) (params : List (List Char)),
        placeholderName uri (o, c) ≠ [] →
        (placeholderBody uri (o, c)).any (fun ch => ch == ':') = true →
        ((placeholderBody uri (o, c)).dropWhile (fun ch => ch != ':')).tail = [] →
        compileLoop uri (o :: c :: rest) endIdx acc params = .error .missingPattern) ∧
    (∀ (uri : List Char) (o c : Nat) (rest : List Nat) (endIdx : Nat)
        (acc : List Char) (params : List (List Char)),
        placeholderName uri (o, c) ≠ [] →
        (placeholderBody uri (o, c)).any (fun ch => ch == ':') = false →
        compileLoop uri (o :: c :: rest) endIdx acc params =
          compileLoop uri rest (c + 1)
            (acc ++ slice uri endIdx o ++ '(' :: defaultPattern ++ [')'])
            (params ++ [placeholderName uri (o, c)])) ∧
    (∀ (E : RegexEngine) (uri : List Char) (ends : Bool) (idxs : List Nat)
        (e : CompileError),
        braceIndices uri = .ok idxs → 0 < idxs.length →
        compileLoop uri idxs 0 [] [] = .error e →
        compileParameters E uri ends = .error e) := by
  refine ⟨?_, ?_, ?_, ?_⟩
  · intro uri o c rest endIdx acc params h
    simp only [placeholderName, placeholderBody] at h
    simp [compileLoop, h]
  · intro uri o c rest endIdx acc params h1 h2 h3
    simp only [placeholderName, placeholderBody] at h1
    simp only [placeholderBody] at h2 h3
    simp [compileLoop, h1, h2, h3]
  · intro uri o c rest endIdx acc params h1 h2
    simp only [placeholderName, placeholderBody] at h1 ⊢
    simp only [placeholderBody] at h2
    simp [compileLoop, h1, h2]
  · intro E uri ends idxs e hidx hlen hloop
    simp only [compileParameters]
    rw [hidx]
    simp only [hlen, if_pos hlen]
    rw [hloop]
    simp

/-! Small facts about the depth function and the first-level positions. -/

theorem lbrace_ne_rbrace : lbrace ≠ rbrace := by decide

theorem charDelta_lbrace : charDelta lbrace = 1 := by decide

theorem charDelta_rbrace : charDelta rbrace = -1 := by decide

theorem charDelta_other (c : Char) (h1 : ¬ c = lbrace) (h2 : ¬ c = rbrace) :
    charDelta c = 0 := by
  simp [charDelta, h1, h2]

theorem depth_append (a b : List Char) : depth (a ++ b) = depth a + depth b := by
  simp [depth]

theorem depth_take_succ (s : List Char) (i : Nat) (c : Char) (h : s.get? i = some c) :
    depth (s.take (i + 1)) = depth (s.take i) + charDelta c := by
  have h' : s[i]? = some c := by rwa [← List.get?_eq_getElem?]
  rw [List.take_succ, h']
  simp [depth_append, depth]

theorem opensBefore_succ (s : List Char) (i : Nat) :
    opensBefore s (i + 1) = opensBefore s i ++
      (if isFirstLevelOpen s i then [i] else []) := by
  unfold opensBefore
  rw [List.range_succ, List.filter_append, List.filter_singleton]
  by_cases h : isFirstLevelOpen s i
  · simp [h]
  · simp [h]

theorem closesBefore_succ (s : List Char) (j : Nat) :
    closesBefore s (j + 1) = closesBefore s j ++
      (if isFirstLevelClose s j then [j] else []) := by
  unfold closesBefore
  rw [List.range_succ, List.filter_append, List.filter_singleton]
  by_cases h : isFirstLevelClose s j
  · simp [h]
  · simp [h]

theorem not_open_of_get (s : List Char) (i : Nat) (c : Char) (h : s.get? i = some c)
    (hc : ¬ c = lbrace) : ¬ isFirstLevelOpen s i := by
  intro hop
  rw [isFirstLevelOpen, h] at hop
  exact hc (Option.some.inj hop.1)

theorem not_close_of_get (s : List Char) (j : Nat) (c : Char) (h : s.get? j = some c)
    (hc : ¬ c = rbrace) : ¬ isFirstLevelClose s j := by
  intro hcl
  rw [isFirstLevelClose, h] at hcl
  exact hc (Option.some.inj hcl.1)

theorem not_close_of_depth (s : List Char) (j : Nat)
    (hd : depth (s.take (j + 1)) ≠ 0) : ¬ isFirstLevelClose s j := by
  intro hcl
  exact hd hcl.2

theorem not_open_of_depth (s : List Char) (i : Nat)
    (hd : depth (s.take i) ≠ 0) : ¬ isFirstLevelOpen s i := by
  intro hop
  exact hd hop.2

theorem zip_left_extend (A B : List Nat) (x : Nat) (h : A.length = B.length) :
    (A ++ [x]).zip B = A.zip B := by
  conv_lhs => rw [← List.append_nil B]
  rw [List.zip_append h]
  simp

theorem flattenPairs_append (A B : List (Nat × Nat)) :
    flattenPairs (A ++ B) = flattenPairs A ++ flattenPairs B := by
  induction A with
  | nil => rfl
  | cons p rest ih => simp [flattenPairs, ih]

theorem mem_flattenPairs (A : List (Nat × Nat)) (p : Nat × Nat) (h : p ∈ A) :
    p.1 ∈ flattenPairs A ∧ p.2 ∈ flattenPairs A := by
  induction A with
  | nil => simp at h
  | cons q rest ih =>
    rcases List.mem_cons.mp h with hq | hrest
    · subst hq
      simp [flattenPairs]
    · obtain ⟨h1, h2⟩ := ih hrest
      simp [flattenPairs, h1, h2]

theorem opensBefore_prefix (s : List Char) (i : Nat) (h : i ≤ s.length) :
    ∃ X, firstLevelOpens s = opensBefore s i ++ X := by
  unfold firstLevelOpens opensBefore
  obtain ⟨k, hk⟩ : ∃ k, s.length = i + k := ⟨s.length - i, by omega⟩
  rw [hk, List.range_add, List.filter_append]
  exact ⟨_, rfl⟩

theorem closesBefore_prefix (s : List Char) (i : Nat) (h : i ≤ s.length) :
    ∃ X, firstLevelCloses s = closesBefore s i ++ X := by
  unfold firstLevelCloses closesBefore
  obtain ⟨k, hk⟩ : ∃ k, s.length = i + k := ⟨s.length - i, by omega⟩
  rw [hk, List.range_add, List.filter_append]
  exact ⟨_, rfl⟩

/-- Invariant-carrying description of the scanner loop. Starting from offset
i with the level equal to the depth of the processed prefix, no prefix of
negative depth so far, a pending first-level opening at idx whenever the
level is positive, and the recorded indices equal to the flattened zip of
the first-level openings and closings seen so far, the loop returns the
flattened first-level pairs of the whole string exactly when no prefix has
negative depth, the total depth is zero and no first-level pair is empty;
an emptyParam error exhibits an empty first-level pair and an unbalanced
error a negative prefix or a nonzero total depth. -/
theorem braceLoop_master (s : List Char) : ∀ (rest : List Char) (i idx : Nat),
    rest = s.drop i → i ≤ s.length →
    (∀ n, n ≤ i → 0 ≤ depth (s.take n)) →
    (1 ≤ depth (s.take i) →
      isFirstLevelOpen s idx ∧ idx < i ∧
      (∀ n, idx < n → n ≤ i → 1 ≤ depth (s.take n)) ∧
      (opensBefore s i).getLast? = some idx ∧
      (opensBefore s i).length = (closesBefore s i).length + 1 ∧
      (∀ x ∈ flattenPairs ((opensBefore s i).zip (closesBefore s i)), x < idx)) →
    (depth (s.take i) = 0 → (opensBefore s i).length = (closesBefore s i).length) →
    PairsOk s ((opensBefore s i).zip (closesBefore s i)) →
    (∀ x ∈ flattenPairs ((opensBefore s i).zip (closesBefore s i)), x < i) →
    match braceLoop rest i (depth (s.take i)) idx
        (flattenPairs ((opensBefore s i).zip (closesBefore s i))) with
    | .ok l => l = flattenPairs (firstLevelPairs s) ∧ PairsOk s (firstLevelPairs s) ∧
        depth s = 0 ∧ (∀ n, n ≤ s.length → 0 ≤ depth (s.take n))
    | .error .emptyParam => ∃ p ∈ firstLevelPairs s, p.2 = p.1 + 1
    | .error .unbalanced =>
        (∃ n, n ≤ s.length ∧ depth (s.take n) < 0) ∨ depth s ≠ 0 := by
  intro rest
  induction rest with
  | nil =>
    intro i idx hrest hile hnneg hpend hbal hshape hlt
    have hlen : i = s.length := by
      have hlel := congrArg List.length hrest
      rw [List.length_drop] at hlel
      simp only [List.length_nil] at hlel
      omega
    subst hlen
    rw [List.take_length]
    simp only [braceLoop]
    by_cases hL : depth s = 0
    · rw [if_pos hL]
      refine ⟨rfl, hshape, hL, ?_⟩
      intro n hn
      exact hnneg n hn
    · rw [if_neg hL]
      exact Or.inr hL
  | cons c rest ih =>
    intro i idx hrest hile hnneg hpend hbal hshape hlt
    have hget : s.get? i = some c := by
      have h0 : (s.drop i).get? 0 = some c := by rw [← hrest]; rfl
      rwa [List.get?_drop, Nat.add_zero] at h0
    have hlen : i < s.length := by
      rcases List.get?_eq_some.mp hget with ⟨h, _⟩
      exact h
    have hrest2 : rest = s.drop (i + 1) := by
      have h1 : (s.drop i).drop 1 = rest := by rw [← hrest]; rfl
      rw [← h1, List.drop_drop]
    have hdsucc : depth (s.take (i + 1)) = depth (s.take i) + charDelta c :=
      depth_take_succ s i c hget
    have hile2 : i + 1 ≤ s.length := hlen
    have hdge0 : 0 ≤ depth (s.take i) := hnneg i (le_refl i)
    simp only [braceLoop]
    by_cases hcl : c = lbrace
    · subst hcl
      rw [if_pos rfl]
      have hd1 : depth (s.take (i + 1)) = depth (s.take i) + 1 := by
        rw [hdsucc, charDelta_lbrace]
      have hcloses : closesBefore s (i + 1) = closesBefore s i := by
        rw [closesBefore_succ,
          if_neg (not_close_of_get s i lbrace hget lbrace_ne_rbrace)]
        simp
      by_cases h0 : depth (s.take i) = 0
      · rw [if_pos (show depth (s.take i) + 1 = 1 by omega)]
        have hopen_i : isFirstLevelOpen s i := ⟨hget, h0⟩
        have hopens1 : opensBefore s (i + 1) = opensBefore s i ++ [i] := by
          rw [opensBefore_succ, if_pos hopen_i]
        have hzipeq : (opensBefore s (i + 1)).zip (closesBefore s (i + 1)) =
            (opensBefore s i).zip (closesBefore s i) := by
          rw [hopens1, hcloses]
          exact zip_left_extend _ _ i (hbal h0)
        rw [show depth (s.take i) + 1 = depth (s.take (i + 1)) from hd1.symm]
        rw [show flattenPairs ((opensBefore s i).zip (closesBefore s i)) =
            flattenPairs ((opensBefore s (i + 1)).zip (closesBefore s (i + 1))) from by
          rw [hzipeq]]
        refine ih (i + 1) i hrest2 hile2 ?_ ?_ ?_ ?_ ?_
        · intro n hn
          rcases Nat.lt_or_ge n (i + 1) with h | h
          · exact hnneg n (by omega)
          · have hn1 : n = i + 1 := by omega
            subst hn1
            rw [hd1, h0]
            norm_num
        · intro _
          refine ⟨hopen_i, by omega, ?_, ?_, ?_, ?_⟩
          · intro n h1 h2
            have hn1 : n = i + 1 := by omega
            subst hn1
            rw [hd1, h0]
            norm_num
          · rw [hopens1]
            exact List.getLast?_concat _
          · rw [hopens1, hcloses, List.length_append]
            have := hbal h0
            simp only [List.length_singleton]
            omega
          · rw [hzipeq]
            exact hlt
        · intro hzero
          rw [hd1, h0] at hzero
          norm_num at hzero
        · rw [hzipeq]
          exact hshape
        · rw [hzipeq]
          intro x hx
          have := hlt x hx
          omega
      · rw [if_neg (show ¬ (depth (s.take i) + 1 = 1) by omega)]
        have hge1 : 1 ≤ depth (s.take i) := by omega
        obtain ⟨hoidx, hidxlt, hmid, hlast, hlen1, hacclt⟩ := hpend hge1
        have hopens0 : opensBefore s (i + 1) = opensBefore s i := by
          rw [opensBefore_succ, if_neg (not_open_of_depth s i h0)]
          simp
        rw [show depth (s.take i) + 1 = depth (s.take (i + 1)) from hd1.symm]
        rw [show flattenPairs ((opensBefore s i).zip (closesBefore s i)) =
            flattenPairs ((opensBefore s (i + 1)).zip (closesBefore s (i + 1))) from by
          rw [hopens0, hcloses]]
        refine ih (i + 1) idx hrest2 hile2 ?_ ?_ ?_ ?_ ?_
        · intro n hn
          rcases Nat.lt_or_ge n (i + 1) with h | h
          · exact hnneg n (by omega)
          · have hn1 : n = i + 1 := by omega
            subst hn1
            rw [hd1]
            omega
        · intro _
          refine ⟨hoidx, by omega, ?_, ?_, ?_, ?_⟩
          · intro n h1 h2
            rcases Nat.lt_or_ge n (i + 1) with h | h
            · exact hmid n h1 (by omega)
            · have hn1 : n = i + 1 := by omega
              subst hn1
              rw [hd1]
              omega
          · rw [hopens0]
            exact hlast
          · rw [hopens0, hcloses]
            exact hlen1
          · rw [hopens0, hcloses]
            exact hacclt
        · intro hzero
          rw [hd1] at hzero
          omega
        · rw [hopens0, hcloses]
          exact hshape
        · rw [hopens0, hcloses]
          intro x hx
          have := hlt x hx
          omega
    · rw [if_neg hcl]
      by_cases hcr : c = rbrace
      · subst hcr
        rw [if_pos rfl]
        have hdm1 : depth (s.take (i + 1)) = depth (s.take i) - 1 := by
          rw [hdsucc, charDelta_rbrace]
          ring
        have hopens0 : opensBefore s (i + 1) = opensBefore s i := by
          rw [opensBefore_succ,
            if_neg (not_open_of_get s i rbrace hget (fun hc => lbrace_ne_rbrace hc.symm))]
          simp
        by_cases h1 : depth (s.take i) - 1 = 0
        · rw [if_pos h1]
          have hd_i : depth (s.take i) = 1 := by omega
          obtain ⟨hoidx, hidxlt, hmid, hlast, hlen1, hacclt⟩ := hpend (by omega)
          have hclose_i : isFirstLevelClose s i := ⟨hget, by rw [hdm1, hd_i]; norm_num⟩
          have hcloses1 : closesBefore s (i + 1) = closesBefore s i ++ [i] := by
            rw [closesBefore_succ, if_pos hclose_i]
          have hne : opensBefore s i ≠ [] := by
            intro hemp
            rw [hemp] at hlast
            simp at hlast
          set A := (opensBefore s i).dropLast with hA
          have hgl := List.getLast?_eq_getLast (opensBefore s i) hne
          rw [hgl] at hlast
          have hglidx : (opensBefore s i).getLast hne = idx := Option.some.inj hlast
          have hsplit : A ++ [idx] = opensBefore s i := by
            rw [hA, ← hglidx]
            exact List.dropLast_append_getLast hne
          have hlenA : A.length = (closesBefore s i).length := by
            rw [hA, List.length_dropLast]
            omega
          by_cases hemp : i = idx + 1
          · rw [if_pos hemp]
            obtain ⟨X, hX⟩ := opensBefore_prefix s (i + 1) hile2
            obtain ⟨Y, hY⟩ := closesBefore_prefix s (i + 1) hile2
            refine ⟨(idx, i), ?_, hemp⟩
            unfold firstLevelPairs
            rw [hX, hY, hopens0, hcloses1, ← hsplit,
              List.append_assoc, List.append_assoc, List.zip_append hlenA]
            apply List.mem_append_right
            exact List.mem_cons_self _ _
          · rw [if_neg hemp]
            have hzip_i : (opensBefore s i).zip (closesBefore s i) =
                A.zip (closesBefore s i) := by
              conv_lhs => rw [← hsplit]
              exact zip_left_extend _ _ idx hlenA
            have hzip_succ : (opensBefore s (i + 1)).zip (closesBefore s (i + 1)) =
                A.zip (closesBefore s i) ++ [(idx, i)] := by
              rw [hopens0, hcloses1]
              conv_lhs => rw [← hsplit]
              rw [List.zip_append hlenA]
              rfl
            rw [show depth (s.take i) - 1 = depth (s.take (i + 1)) from hdm1.symm]
            rw [show flattenPairs ((opensBefore s i).zip (closesBefore s i)) ++ [idx, i] =
                flattenPairs ((opensBefore s (i + 1)).zip (closesBefore s (i + 1))) from by
              rw [hzip_succ, flattenPairs_append, hzip_i]
              rfl]
            rw [hzip_i] at hshape hacclt hlt
            refine ih (i + 1) idx hrest2 hile2 ?_ ?_ ?_ ?_ ?_
            · intro n hn
              rcases Nat.lt_or_ge n (i + 1) with h | h
              · exact hnneg n (by omega)
              · have hn1 : n = i + 1 := by omega
                subst hn1
                rw [hdm1]
                omega
            · intro hcontra
              rw [hdm1, hd_i] at hcontra
              norm_num at hcontra
            · intro _
              rw [hopens0, hcloses1, List.length_append]
              simp only [List.length_singleton]
              omega
            · rw [hzip_succ]
              constructor
              · intro p hp
                rcases List.mem_append.mp hp with hold | hnew
                · exact hshape.1 p hold
                · have hpe : p = (idx, i) := by simpa using hnew
                  subst hpe
                  exact ⟨by omega, hoidx.1, hget⟩
              · rw [List.chain'_append]
                refine ⟨hshape.2, List.chain'_singleton _, ?_⟩
                intro x hx y hy
                have hxmem : x ∈ A.zip (closesBefore s i) :=
                  List.mem_of_mem_getLast? hx
                have hye : y = (idx, i) := by
                  have := hy
                  simp at this
                  exact this.symm
                subst hye
                exact hacclt x.2 (mem_flattenPairs _ x hxmem).2
            · rw [hzip_succ, flattenPairs_append]
              intro x hx
              rcases List.mem_append.mp hx with hold | hnew
              · have := hlt x hold
                omega
              · simp only [flattenPairs, List.mem_cons, List.not_mem_nil, or_false] at hnew
                rcases hnew with h | h <;> omega
        · rw [if_neg h1]
          by_cases hneg : depth (s.take i) - 1 < 0
          · rw [if_pos hneg]
            refine Or.inl ⟨i + 1, hile2, ?_⟩
            rw [hdm1]
            omega
          · rw [if_neg hneg]
            have hge2 : 2 ≤ depth (s.take i) := by omega
            obtain ⟨hoidx, hidxlt, hmid, hlast, hlen1, hacclt⟩ := hpend (by omega)
            have hcloses0 : closesBefore s (i + 1) = closesBefore s i := by
              rw [closesBefore_succ,
                if_neg (not_close_of_depth s i (by rw [hdm1]; omega))]
              simp
            rw [show depth (s.take i) - 1 = depth (s.take (i + 1)) from hdm1.symm]
            rw [show flattenPairs ((opensBefore s i).zip (closesBefore s i)) =
                flattenPairs ((opensBefore s (i + 1)).zip (closesBefore s (i + 1))) from by
              rw [hopens0, hcloses0]]
            refine ih (i + 1) idx hrest2 hile2 ?_ ?_ ?_ ?_ ?_
            · intro n hn
              rcases Nat.lt_or_ge n (i + 1) with h | h
              · exact hnneg n (by omega)
              · have hn1 : n = i + 1 := by omega
                subst hn1
                rw [hdm1]
                omega
            · intro _
              refine ⟨hoidx, by omega, ?_, ?_, ?_, ?_⟩
              · intro n hn1 hn2
                rcases Nat.lt_or_ge n (i + 1) with h | h
                · exact hmid n hn1 (by omega)
                · have hn3 : n = i + 1 := by omega
                  subst hn3
                  rw [hdm1]
                  omega
              · rw [hopens0]
                exact hlast
              · rw [hopens0, hcloses0]
                exact hlen1
              · rw [hopens0, hcloses0]
                exact hacclt
            · intro hzero
              rw [hdm1] at hzero
              omega
            · rw [hopens0, hcloses0]
              exact hshape
            · rw [hopens0, hcloses0]
              intro x hx
              have := hlt x hx
              omega
      · rw [if_neg hcr]
        have hd0 : depth (s.take (i + 1)) = depth (s.take i) := by
          rw [hdsucc, charDelta_other c hcl hcr]
          ring
        have hopens0 : opensBefore s (i + 1) = opensBefore s i := by
          rw [opensBefore_succ, if_neg (not_open_of_get s i c hget hcl)]
          simp
        have hcloses0 : closesBefore s (i + 1) = closesBefore s i := by
          rw [closesBefore_succ, if_neg (not_close_of_get s i c hget hcr)]
          simp
        rw [show depth (s.take i) = depth (s.take (i + 1)) from hd0.symm]
        rw [show flattenPairs ((opensBefore s i).zip (closesBefore s i)) =
            flattenPairs ((opensBefore s (i + 1)).zip (closesBefore s (i + 1))) from by
          rw [hopens0, hcloses0]]
        refine ih (i + 1) idx hrest2 hile2 ?_ ?_ ?_ ?_ ?_
        · intro n hn
          rcases Nat.lt_or_ge n (i + 1) with h | h
          · exact hnneg n (by omega)
          · have hn1 : n = i + 1 := by omega
            subst hn1
            rw [hd0]
            exact hdge0
        · intro hp1
          rw [hd0] at hp1
          obtain ⟨hoidx, hidxlt, hmid, hlast, hlen1, hacclt⟩ := hpend hp1
          refine ⟨hoidx, by omega, ?_, ?_, ?_, ?_⟩
          · intro n hn1 hn2
            rcases Nat.lt_or_ge n (i + 1) with h | h
            · exact hmid n hn1 (by omega)
            · have hn3 : n = i + 1 := by omega
              subst hn3
              rw [hd0]
              exact hmid i hidxlt (le_refl i)
          · rw [hopens0]
            exact hlast
          · rw [hopens0, hcloses0]
            exact hlen1
          · rw [hopens0, hcloses0]
            exact hacclt
        · intro hzero
          rw [hd0] at hzero
          rw [hopens0, hcloses0]
          exact hbal hzero
        · rw [hopens0, hcloses0]
          exact hshape
        · rw [hopens0, hcloses0]
          intro x hx
          have := hlt x hx
          omega

/-- The scanner, started in its initial state, satisfies the invariant
description of braceLoop_master. -/
theorem braceIndices_master (s : List Char) :
    match braceIndices s with
    | .ok l => l = flattenPairs (firstLevelPairs s) ∧ PairsOk s (firstLevelPairs s) ∧
        depth s = 0 ∧ (∀ n, n ≤ s.length → 0 ≤ depth (s.take n))
    | .error .emptyParam => ∃ p ∈ firstLevelPairs s, p.2 = p.1 + 1
    | .error .unbalanced =>
        (∃ n, n ≤ s.length ∧ depth (s.take n) < 0) ∨ depth s ≠ 0 := by
  have hzip : (opensBefore s 0).zip (closesBefore s 0) = [] := rfl
  have h := braceLoop_master s s 0 0 rfl (Nat.zero_le _)
    (by
      intro n hn
      have hn0 : n = 0 := Nat.le_zero.mp hn
      subst hn0
      simp [depth])
    (by
      intro hcon
      rw [List.take_zero] at hcon
      simp [depth] at hcon)
    (fun _ => rfl)
    (by
      rw [hzip]
      exact ⟨fun p hp => absurd hp (List.not_mem_nil p), List.chain'_nil⟩)
    (by
      rw [hzip]
      intro x hx
      exact absurd hx (List.not_mem_nil x))
  exact h

/-- Flattening doubles the length. -/
theorem flattenPairs_length (A : List (Nat × Nat)) :
    (flattenPairs A).length = 2 * A.length := by
  induction A with
  | nil => rfl
  | cons p rest ih =>
    simp only [flattenPairs, List.length_cons, ih]
    omega

/-- Grouping undoes flattening. -/
theorem toPairs_flattenPairs (A : List (Nat × Nat)) : toPairs (flattenPairs A) = A := by
  induction A with
  | nil => rfl
  | cons p rest ih => simp [flattenPairs, toPairs, ih]

/-- The flat index list of a well-shaped pair list is strictly increasing. -/
theorem chain'_flattenPairs (s : List Char) (A : List (Nat × Nat)) (h : PairsOk s A) :
    List.Chain' (fun a b => a < b) (flattenPairs A) := by
  induction A with
  | nil => exact List.chain'_nil
  | cons p rest ih =>
    have hrest : PairsOk s rest :=
      ⟨fun q hq => h.1 q (List.mem_cons_of_mem p hq), h.2.tail⟩
    have hp12 : p.1 < p.2 := by
      have := h.1 p (List.mem_cons_self p rest)
      omega
    cases rest with
    | nil =>
      simp only [flattenPairs]
      exact List.chain'_pair.mpr hp12
    | cons q rest' =>
      have hlink : p.2 < q.1 := (List.chain'_cons.mp h.2).1
      simp only [flattenPairs]
      rw [List.chain'_cons]
      refine ⟨hp12, ?_⟩
      have hfl : flattenPairs (q :: rest') = q.1 :: q.2 :: flattenPairs rest' := rfl
      rw [List.chain'_cons]
      exact ⟨hlink, hfl ▸ ih hrest⟩

/-- C3: braceIndices fails exactly when some prefix has negative depth (a
closing brace with no matching opening), the total depth is nonzero, or
some first-level pair is empty; the emptyParam error implies an empty pair
and the unbalanced error implies one of the depth conditions; on success
the returned list is the flattened sequence of first-level pairs. -/
theorem C3_braceIndices_characterization (s : List Char) :
    ((∃ e, braceIndices s = .error e) ↔ (negAt s ∨ depth s ≠ 0 ∨ hasEmptyPair s)) ∧
    (braceIndices s = .error .emptyParam → hasEmptyPair s) ∧
    (braceIndices s = .error .unbalanced → negAt s ∨ depth s ≠ 0) ∧
    (∀ l, braceIndices s = .ok l → l = flattenPairs (firstLevelPairs s)) := by
  have h := braceIndices_master s
  cases hres : braceIndices s with
  | ok l =>
    rw [hres] at h
    obtain ⟨hflat, hpairs, hdep, hnneg⟩ := h
    refine ⟨⟨?_, ?_⟩, ?_, ?_, ?_⟩
    · rintro ⟨e, he⟩
      simp at he
    · rintro (hneg | hnz | hemp)
      · obtain ⟨n, hn, hd⟩ := hneg
        have := hnneg n hn
        omega
      · exact absurd hdep hnz
      · obtain ⟨p, hp, hpe⟩ := hemp
        obtain ⟨hlt2, _, _⟩ := hpairs.1 p hp
        omega
    · intro hcon
      simp at hcon
    · intro hcon
      simp at hcon
    · intro l2 hl2
      have : l = l2 := Except.ok.inj hl2
      rw [← this, hflat]
  | error e =>
    cases e with
    | unbalanced =>
      rw [hres] at h
      refine ⟨⟨?_, ?_⟩, ?_, ?_, ?_⟩
      · intro _
        rcases h with hneg | hnz
        · exact Or.inl hneg
        · exact Or.inr (Or.inl hnz)
      · intro _
        exact ⟨.unbalanced, rfl⟩
      · intro hcon
        simp at hcon
      · intro _
        exact h
      · intro l2 hcon
        simp at hcon
    | emptyParam =>
      rw [hres] at h
      refine ⟨⟨?_, ?_⟩, ?_, ?_, ?_⟩
      · intro _
        exact Or.inr (Or.inr h)
      · intro _
        exact ⟨.emptyParam, rfl⟩
      · intro _
        exact h
      · intro hcon
        simp at hcon
      · intro l2 hcon
        simp at hcon

/-- Witness for C3: on the template /user/(id) the scanner succeeds and the
returned indices are the flattened first-level pairs. -/
theorem C3_braceIndices_characterization_witness :
    ([6, 9] : List Nat) = flattenPairs (firstLevelPairs "/user/\x7bid\x7d".data) :=
  (C3_braceIndices_characterization "/user/\x7bid\x7d".data).2.2.2 [6, 9] (by rfl)

/-- C9: every successful scan returns a flat list of even length encoding
strictly increasing, non-overlapping pairs, each an opening brace strictly
before a closing brace with a nonempty body between them. -/
theorem C9_braceIndices_shape (s : List Char) (l : List Nat)
    (h : braceIndices s = .ok l) :
    l.length % 2 = 0 ∧ List.Chain' (fun a b => a < b) l ∧
    ∀ p ∈ toPairs l, p.1 + 1 < p.2 ∧ s.get? p.1 = some lbrace ∧
      s.get? p.2 = some rbrace := by
  have hm := braceIndices_master s
  rw [h] at hm
  obtain ⟨hflat, hpairs, _, _⟩ := hm
  subst hflat
  refine ⟨?_, chain'_flattenPairs s _ hpairs, ?_⟩
  · rw [flattenPairs_length]
    omega
  · rw [toPairs_flattenPairs]
    exact hpairs.1

/-- Witness for C9 on the template (a)(b). -/
theorem C9_braceIndices_shape_witness :
    List.Chain' (fun a b => a < b) ([0, 2, 3, 5] : List Nat) :=
  (C9_braceIndices_shape "\x7ba\x7d\x7bb\x7d".data [0, 2, 3, 5] (by rfl)).2.1

/-- A successful placeholder loop appends per pair the preceding literal
text and one capturing group, records the names in order, ends one past the
last closing brace, and has validated every name and pattern part. -/
theorem compileLoop_ok (uri : List Char) : ∀ (idxs : List Nat) (endIdx : Nat)
    (acc : List Char) (params : List (List Char)) (body : List Char)
    (ps : List (List Char)) (e : Nat),
    compileLoop uri idxs endIdx acc params = .ok (body, ps, e) →
    body = acc ++ assembleMid uri (toPairs idxs) endIdx ∧
    ps = params ++ (toPairs idxs).map (fun q => placeholderName uri q) ∧
    e = lastEnd (toPairs idxs) endIdx ∧
    ∀ q ∈ toPairs idxs, placeholderName uri q ≠ [] ∧
      ((placeholderBody uri q).any (fun ch => ch == ':') = true →
        ((placeholderBody uri q).dropWhile (fun ch => ch != ':')).tail ≠ [])
  | [], endIdx, acc, params, body, ps, e, h => by
    simp only [compileLoop, Except.ok.injEq, Prod.mk.injEq] at h
    obtain ⟨h1, h2, h3⟩ := h
    subst h1
    subst h2
    subst h3
    refine ⟨by simp [toPairs, assembleMid], by simp [toPairs], rfl, ?_⟩
    intro q hq
    simp [toPairs] at hq
  | [x], endIdx, acc, params, body, ps, e, h => by
    simp [compileLoop] at h
  | o :: c :: rest, endIdx, acc, params, body, ps, e, h => by
    simp only [compileLoop] at h
    by_cases hn : (slice uri (o + 1) c).takeWhile (fun ch => ch != ':') = []
    · rw [if_pos hn] at h
      simp at h
    · rw [if_neg hn] at h
      have hname : placeholderName uri (o, c) ≠ [] := hn
      by_cases hc : (slice uri (o + 1) c).any (fun ch => ch == ':') = true
      · rw [if_pos hc] at h
        by_cases hpt : ((slice uri (o + 1) c).dropWhile (fun ch => ch != ':')).tail = []
        · rw [if_pos hpt] at h
          simp at h
        · rw [if_neg hpt] at h
          obtain ⟨hb, hp, he, hall⟩ :=
            compileLoop_ok uri rest (c + 1) _ _ body ps e h
          have hpatdef : placeholderPattern uri (o, c) =
              ((slice uri (o + 1) c).dropWhile (fun ch => ch != ':')).tail := by
            unfold placeholderPattern placeholderBody
            rw [if_pos hc]
          refine ⟨?_, ?_, he, ?_⟩
          · rw [hb, show toPairs (o :: c :: rest) = (o, c) :: toPairs rest from rfl]
            simp only [assembleMid, hpatdef]
            simp [List.append_assoc, placeholderName, placeholderBody]
          · rw [hp, show toPairs (o :: c :: rest) = (o, c) :: toPairs rest from rfl]
            simp [List.append_assoc, placeholderName, placeholderBody]
          · intro q hq
            rcases List.mem_cons.mp hq with hq1 | hq2
            · subst hq1
              exact ⟨hname, fun _ => hpt⟩
            · exact hall q hq2
      · rw [if_neg hc] at h
        obtain ⟨hb, hp, he, hall⟩ :=
          compileLoop_ok uri rest (c + 1) _ _ body ps e h
        have hpatdef : placeholderPattern uri (o, c) = defaultPattern := by
          unfold placeholderPattern placeholderBody
          rw [if_neg hc]
        refine ⟨?_, ?_, he, ?_⟩
        · rw [hb, show toPairs (o :: c :: rest) = (o, c) :: toPairs rest from rfl]
          simp only [assembleMid, hpatdef]
          simp [List.append_assoc, placeholderName, placeholderBody]
        · rw [hp, show toPairs (o :: c :: rest) = (o, c) :: toPairs rest from rfl]
          simp [List.append_assoc, placeholderName, placeholderBody]
        · intro q hq
          rcases List.mem_cons.mp hq with hq1 | hq2
          · subst hq1
            refine ⟨hname, fun hcon => ?_⟩
            rw [placeholderBody] at hcon
            exact absurd hcon (by rw [show ((o, c) : Nat × Nat).1 = o from rfl]; exact hc)
          · exact hall q hq2

/-- Everything a successful compilation determines: the scanner succeeded,
the compiled pattern is the assembled pattern of its first-level pairs, the
parameters are the placeholder names in order, the engine accepted the
pattern, the group count matches, and every placeholder was validated. -/
theorem compileParameters_ok (E : RegexEngine) (uri : List Char) (ends : Bool)
    (p : parametrizeable) (h : compileParameters E uri ends = .ok p) :
    ∃ idxs, braceIndices uri = .ok idxs ∧
      p.regex = assembledPattern uri (toPairs idxs) ends ∧
      p.parameters = (toPairs idxs).map (fun q => placeholderName uri q) ∧
      E.valid p.regex = true ∧
      E.numSubexp p.regex = idxs.length / 2 ∧
      (∀ q ∈ toPairs idxs, placeholderName uri q ≠ [] ∧
        ((placeholderBody uri q).any (fun ch => ch == ':') = true →
          ((placeholderBody uri q).dropWhile (fun ch => ch != ':')).tail ≠ [])) := by
  simp only [compileParameters] at h
  cases hidx : braceIndices uri with
  | error e =>
    rw [hidx] at h
    simp at h
  | ok idxs =>
    rw [hidx] at h
    dsimp only at h
    refine ⟨idxs, rfl, ?_⟩
    by_cases hlen : 0 < idxs.length
    · rw [if_pos hlen] at h
      cases hloop : compileLoop uri idxs 0 [] [] with
      | error e =>
        rw [hloop] at h
        simp at h
      | ok trip =>
        obtain ⟨body, ps, endIdx⟩ := trip
        rw [hloop] at h
        dsimp only at h
        obtain ⟨hb, hp, he, hall⟩ := compileLoop_ok uri idxs 0 [] [] body ps endIdx hloop
        by_cases hv : E.valid ('^' :: (body ++ uri.drop endIdx) ++
            (if ends then ['$'] else [])) = true
        · rw [if_pos hv] at h
          by_cases hns : E.numSubexp ('^' :: (body ++ uri.drop endIdx) ++
              (if ends then ['$'] else [])) = idxs.length / 2
          · rw [if_pos hns] at h
            have hpv : p = ⟨'^' :: (body ++ uri.drop endIdx) ++
                (if ends then ['$'] else []), ps⟩ := (Except.ok.inj h).symm
            subst hpv
            have hregex : ('^' :: (body ++ uri.drop endIdx) ++
                (if ends then ['$'] else [])) =
                assembledPattern uri (toPairs idxs) ends := by
              rw [assembledPattern, hb, he]
              simp
            exact ⟨hregex, by simpa using hp, hv, hns, hall⟩
          · rw [if_neg hns] at h
            simp at h
        · rw [if_neg hv] at h
          simp at h
    · rw [if_neg hlen] at h
      dsimp only at h
      have hnil : idxs = [] := List.length_eq_zero.mp (by omega)
      subst hnil
      by_cases hv : E.valid ('^' :: uri ++ (if ends then ['$'] else [])) = true
      · rw [if_pos hv] at h
        by_cases hns : E.numSubexp ('^' :: uri ++ (if ends then ['$'] else [])) =
            List.length ([] : List Nat) / 2
        · rw [if_pos hns] at h
          have hpv : p = ⟨'^' :: uri ++ (if ends then ['$'] else []), []⟩ :=
            (Except.ok.inj h).symm
          subst hpv
          have hregex : ('^' :: uri ++ (if ends then ['$'] else [])) =
              assembledPattern uri (toPairs ([] : List Nat)) ends := by
            rw [assembledPattern]
            simp [toPairs, assembleMid, lastEnd]
          refine ⟨hregex, by simp [toPairs], hv, hns, ?_⟩
          intro q hq
          simp [toPairs] at hq
        · rw [if_neg hns] at h
          simp at h
      · rw [if_neg hv] at h
        simp at h

/-- A successful scan relates the flat index list to the depth-defined
first-level pairs. -/
theorem braceIndices_ok_pairs (s : List Char) (idxs : List Nat)
    (h : braceIndices s = .ok idxs) :
    toPairs idxs = firstLevelPairs s ∧ idxs.length / 2 = (firstLevelPairs s).length := by
  have hm := braceIndices_master s
  rw [h] at hm
  obtain ⟨hflat, _, _, _⟩ := hm
  subst hflat
  refine ⟨toPairs_flattenPairs _, ?_⟩
  rw [flattenPairs_length]
  omega

/-- A placeholder-loop failure is the failure of compileParameters. -/
theorem compileLoop_error_propagates (E : RegexEngine) (uri : List Char) (ends : Bool)
    (idxs : List Nat) (e : CompileError) (hidx : braceIndices uri = .ok idxs)
    (hlen : 0 < idxs.length) (hloop : compileLoop uri idxs 0 [] [] = .error e) :
    compileParameters E uri ends = .error e := by
  simp only [compileParameters]
  rw [hidx]
  dsimp only
  rw [if_pos hlen, hloop]

/-- The pattern built by compileParameters from a successful loop equals
the assembled pattern of the pair list. -/
theorem pat_eq_assembled (uri : List Char) (ends : Bool) (idxs : List Nat)
    (body : List Char) (endIdx : Nat)
    (hb : body = [] ++ assembleMid uri (toPairs idxs) 0)
    (he : endIdx = lastEnd (toPairs idxs) 0) :
    ('^' :: (body ++ uri.drop endIdx) ++ (if ends then ['$'] else [])) =
      assembledPattern uri (toPairs idxs) ends := by
  rw [assembledPattern, hb, he]
  simp

/-- C1: a successful compilation of a template whose scanner finds k
first-level placeholders records exactly the k placeholder names, in
template order, and a compiled pattern whose capturing-group count as
reported by the host engine is exactly k. -/
theorem C1_compile_counts (E : RegexEngine) (uri : List Char) (ends : Bool)
    (p : parametrizeable) (h : compileParameters E uri ends = .ok p) :
    p.parameters = (firstLevelPairs uri).map (fun q => placeholderName uri q) ∧
    p.parameters.length = (firstLevelPairs uri).length ∧
    E.numSubexp p.regex = (firstLevelPairs uri).length := by
  obtain ⟨idxs, hidx, hregex, hparams, hval, hns, hall⟩ :=
    compileParameters_ok E uri ends p h
  obtain ⟨hpairs, hhalf⟩ := braceIndices_ok_pairs uri idxs hidx
  rw [hparams, hpairs]
  exact ⟨rfl, by simp, by rw [hns, hhalf]⟩

/-- Witness for C1 on the template /a/(x): one name, one group. -/
theorem C1_compile_counts_witness :
    miniNumSubexp "^/a/([^/]+)$".data = (firstLevelPairs "/a/\x7bx\x7d".data).length :=
  (C1_compile_counts demoEngine "/a/\x7bx\x7d".data true
    ⟨"^/a/([^/]+)$".data, ["x".data]⟩ (by rfl)).2.2

/-- C2: the compiled pattern of every successful compilation is exactly the
start anchor, then for each placeholder in order the preceding literal text
copied unchanged and one capturing group holding the user subpattern or the
default pattern, then the trailing literal text, with the end anchor
appended iff ends is true. -/
theorem C2_assembled_pattern (E : RegexEngine) (uri : List Char) (ends : Bool)
    (p : parametrizeable) (h : compileParameters E uri ends = .ok p) :
    p.regex = assembledPattern uri (firstLevelPairs uri) ends := by
  obtain ⟨idxs, hidx, hregex, _, _, _, _⟩ := compileParameters_ok E uri ends p h
  obtain ⟨hpairs, _⟩ := braceIndices_ok_pairs uri idxs hidx
  rw [hregex, hpairs]

/-- Witness for C2 on the template /a/(y)/b with ends true. -/
theorem C2_assembled_pattern_witness :
    ("^/a/([^/]+)/b$".data : List Char) =
      assembledPattern "/a/\x7by\x7d/b".data
        (firstLevelPairs "/a/\x7by\x7d/b".data) true :=
  C2_assembled_pattern demoEngine "/a/\x7by\x7d/b".data true
    ⟨"^/a/([^/]+)/b$".data, ["y".data]⟩ (by rfl)

/-- C4: a successful compilation never returns misaligned name-to-group
positions (the engine-reported group count equals the name count), and if
every earlier stage succeeds (witnessed by a run with an engine reporting
the expected count) while the actual engine reports a different
capturing-group count for the same pattern, compilation fails with
unexpectedCapturingGroup. -/
theorem C4_capture_group_guard (E : RegexEngine) (uri : List Char) (ends : Bool) :
    (∀ p, compileParameters E uri ends = .ok p →
      E.numSubexp p.regex = p.parameters.length) ∧
    (∀ p, compileParameters ⟨E.valid, fun _ => (firstLevelPairs uri).length⟩ uri ends =
        .ok p →
      E.numSubexp p.regex ≠ p.parameters.length →
      compileParameters E uri ends = .error .unexpectedCapturingGroup) := by
  constructor
  · intro p h
    obtain ⟨idxs, hidx, hregex, hparams, hval, hns, _⟩ :=
      compileParameters_ok E uri ends p h
    obtain ⟨hpairs, hhalf⟩ := braceIndices_ok_pairs uri idxs hidx
    rw [hns, hparams, hhalf, hpairs]
    simp
  · intro p hF hne
    obtain ⟨idxs, hidx, hregexF, hparamsF, hvalF, _, _⟩ :=
      compileParameters_ok ⟨E.valid, fun _ => (firstLevelPairs uri).length⟩ uri ends p hF
    obtain ⟨hpairs, hhalf⟩ := braceIndices_ok_pairs uri idxs hidx
    have hplen : p.parameters.length = idxs.length / 2 := by
      rw [hparamsF, hpairs, hhalf]
      simp
    simp only [compileParameters]
    rw [hidx]
    dsimp only
    by_cases hlen : 0 < idxs.length
    · rw [if_pos hlen]
      cases hloop : compileLoop uri idxs 0 [] [] with
      | error e =>
        have := compileLoop_error_propagates
          ⟨E.valid, fun _ => (firstLevelPairs uri).length⟩ uri ends idxs e hidx hlen hloop
        rw [this] at hF
        simp at hF
      | ok trip =>
        obtain ⟨body, ps, endIdx⟩ := trip
        dsimp only
        obtain ⟨hb, hp, he, _⟩ := compileLoop_ok uri idxs 0 [] [] body ps endIdx hloop
        have hpat := pat_eq_assembled uri ends idxs body endIdx hb he
        have hpreg : p.regex = ('^' :: (body ++ uri.drop endIdx) ++
            (if ends then ['$'] else [])) := by
          rw [hregexF, ← hpat]
        rw [if_pos (by rw [← hpreg]; exact hvalF)]
        rw [if_neg (by rw [← hpreg, ← hplen]; exact hne)]
    · rw [if_neg hlen]
      dsimp only
      have hnil : idxs = [] := List.length_eq_zero.mp (by omega)
      subst hnil
      have hpreg : p.regex = ('^' :: uri ++ (if ends then ['$'] else [])) := by
        rw [hregexF]
        rw [show toPairs ([] : List Nat) = [] from rfl, assembledPattern]
        simp [assembleMid, lastEnd]
      rw [if_pos (by rw [← hpreg]; exact hvalF)]
      rw [if_neg (by rw [← hpreg]; simpa [hplen] using hne)]

/-- Witness for C4: the subpattern (foo) smuggles in a capturing group and
compilation fails with unexpectedCapturingGroup. -/
theorem C4_capture_group_guard_witness :
    compileParameters demoEngine "/\x7bid:(foo)\x7d".data true =
      .error .unexpectedCapturingGroup :=
  (C4_capture_group_guard demoEngine "/\x7bid:(foo)\x7d".data true).2
    ⟨"^/((foo))$".data, ["id".data]⟩ (by rfl) (by decide)

/-- C8 (amended): compilation succeeds only if the braces are balanced (no
prefix has negative depth and the total depth is zero), every first-level
pair is nonempty, and every placeholder body has a nonempty name part
before the first colon and, when a colon is present, a nonempty pattern
part after it. Balanced nested braces inside a placeholder body are
accepted, the inner braces becoming part of the parameter name. -/
theorem C8_compile_grammar (E : RegexEngine) (uri : List Char) (ends : Bool)
    (p : parametrizeable) (h : compileParameters E uri ends = .ok p) :
    (∀ n, n ≤ uri.length → 0 ≤ depth (uri.take n)) ∧ depth uri = 0 ∧
    (∀ q ∈ firstLevelPairs uri, q.1 + 1 < q.2 ∧ placeholderName uri q ≠ [] ∧
      ((placeholderBody uri q).any (fun ch => ch == ':') = true →
        ((placeholderBody uri q).dropWhile (fun ch => ch != ':')).tail ≠ [])) := by
  obtain ⟨idxs, hidx, _, _, _, _, hall⟩ := compileParameters_ok E uri ends p h
  obtain ⟨hpairs, _⟩ := braceIndices_ok_pairs uri idxs hidx
  have hm := braceIndices_master uri
  rw [hidx] at hm
  obtain ⟨_, hpok, hdep, hnneg⟩ := hm
  refine ⟨hnneg, hdep, fun q hq => ?_⟩
  obtain ⟨h1, _, _⟩ := hpok.1 q hq
  have hq2 := hall q (by rw [hpairs]; exact hq)
  exact ⟨h1, hq2.1, hq2.2⟩

/-- Counterexample for C8 as stated: the template slash-open-open-a-close-
close does not conform to the spec grammar, yet it compiles successfully,
the nested braces becoming part of the single parameter name. -/
theorem C8_compile_grammar_counterexample :
    conformsToGrammar "/\x7b\x7ba\x7d\x7d".data = false ∧
    compileParameters demoEngine "/\x7b\x7ba\x7d\x7d".data true =
      .ok ⟨"^/([^/]+)$".data, ["\x7ba\x7d".data]⟩ :=
  ⟨rfl, rfl⟩

/-- Witness for C8 on the template /x/(w). -/
theorem C8_compile_grammar_witness :
    depth "/x/\x7bw\x7d".data = 0 :=
  (C8_compile_grammar demoEngine "/x/\x7bw\x7d".data true
    ⟨"^/x/([^/]+)$".data, ["w".data]⟩ (by rfl)).2.1

/-- Witness for C6 at the bodies of /(:x) (empty name) and (id:) (empty
pattern). -/
theorem C6_placeholder_split_witness :
    compileLoop "/\x7b:x\x7d".data [1, 4] 0 [] [] = .error .missingName ∧
    compileParameters demoEngine "/\x7bid:\x7d".data true = .error .missingPattern :=
  ⟨C6_placeholder_split.1 "/\x7b:x\x7d".data 1 4 [] 0 [] [] (by decide),
   C6_placeholder_split.2.2.2 demoEngine "/\x7bid:\x7d".data true [1, 5] .missingPattern
     (by rfl) (by decide)
     (C6_placeholder_split.2.1 "/\x7bid:\x7d".data 1 5 [] 0 [] []
       (by decide) (by decide) (by decide))⟩

end Goyave
